import Mathlib

/-!
Verification development for the model file of the rl-finance repository
(src/model/model.py): an Encoder, a recurrent PolicyNet, and a REINFORCE
optimization step (optimize_model).  Real-valued tensors are embedded as
lists of rationals; the learned LSTM cells and the distribution samplers
are abstract functions, since every property of interest concerns the
wiring around them, not their learned weights.
-/

namespace RLFinance

/-! ## Embedding of optimize_model (model.py lines 165-196) -/

/-- Reward-to-go, translated from the backward loop in optimize_model
(model.py lines 173-179):
  for i in reversed(range(n)): rtg[i] = rewards[i] + (GAMMA * rtg[i+1] if i + 1 < n else 0).
The recursion builds the list back to front: the entry at position i is
rewards[i] plus GAMMA times the entry at position i+1 when that exists. -/
def rtg (γ : ℚ) : List ℚ → List ℚ
  | [] => []
  | r :: rest =>
    match rtg γ rest with
    | [] => [r]
    | x :: xs => (r + γ * x) :: x :: xs

/-- Elementwise product followed by summation: torch.sum(a * b) for two
same-length 1-D tensors (model.py lines 185/187). -/
def dotSum (xs ys : List ℚ) : ℚ :=
  (List.zipWith (fun a b => a * b) xs ys).sum

/-- The accumulation loop of model.py lines 182-187.  The Python loop walks
i over range(len(batch_log_prob)) and reads batch_weight[i]; here the two
lists are consumed in lockstep, with an IndexError when the weight list
runs out first (exactly when len(batch_rewards) < len(batch_log_prob)).
The accumulator mirrors the None-initialized loss variable. -/
def lossLoop : List (List ℚ) → List (List ℚ) → Option ℚ → Except String (Option ℚ)
  | [], _, acc => .ok acc
  | _ :: _, [], _ => .error "IndexError: list index out of range"
  | lp :: lps, w :: ws, acc =>
    lossLoop lps ws
      (some (match acc with
             | none => -(dotSum lp w)
             | some a => a + -(dotSum lp w)))

/-- The scalar loss computed by optimize_model before backpropagation
(model.py lines 169-189): reward-to-go weights per episode, then the
accumulated negative weighted log-probability sum, divided by batch_size
(the length of batch_log_prob).  Dividing the still-None accumulator by
the batch size (the empty-batch case) is a TypeError in Python. -/
def lossOfBatch (γ : ℚ) (batch_log_prob batch_rewards : List (List ℚ)) :
    Except String ℚ :=
  let batch_weight := batch_rewards.map (rtg γ)
  match lossLoop batch_log_prob batch_weight none with
  | .error e => .error e
  | .ok none => .error "TypeError: unsupported operand type NoneType"
  | .ok (some l) => .ok (l / (batch_log_prob.length : ℚ))

/-- A 1-D tensor together with its autograd tracking flag, as needed to
model loss.backward() on model.py line 192. -/
structure GTensor where
  data : List ℚ
  requires_grad : Bool
  deriving Repr, DecidableEq

/-- Full optimize_model (model.py lines 165-196).  The loss value follows
lossOfBatch; the loss tensor requires grad exactly when some log-probability
input does (the reward tensors enter no differentiable path that is
backpropagated into parameters).  loss.backward() raises a RuntimeError when
the loss does not require grad; only on a successful backward do the
gradient clamp (lines 194-195) and optimizer.step() run, and the returned
value is the backpropagated scalar loss. -/
def optimize_model (γ : ℚ) (batch_log_prob : List GTensor)
    (batch_rewards : List (List ℚ)) : Except String ℚ :=
  match lossOfBatch γ (batch_log_prob.map GTensor.data) batch_rewards with
  | .error e => .error e
  | .ok l =>
    if batch_log_prob.any GTensor.requires_grad then
      .ok l
    else
      .error "RuntimeError: element 0 of tensors does not require grad and does not have a grad_fn"

/-! ## Basic lemmas about rtg and the loss fold -/

theorem rtg_length (γ : ℚ) (l : List ℚ) : (rtg γ l).length = l.length := by
  induction l with
  | nil => rfl
  | cons r rest ih =>
    simp only [rtg]
    cases h : rtg γ rest with
    | nil => simp [h] at ih; simp [ih]
    | cons x xs => simp [h] at ih ⊢; omega

theorem rtg_nil (γ : ℚ) : rtg γ [] = [] := rfl

/-- Head/tail shape of rtg on a cons cell whose tail is nonempty. -/
theorem rtg_cons (γ r : ℚ) (rest : List ℚ) :
    rtg γ (r :: rest) =
      match rtg γ rest with
      | [] => [r]
      | x :: xs => (r + γ * x) :: x :: xs := rfl

/-- On a cons cell with nonempty tail, rtg prepends rewards[0] + γ * rtg[1]
to the tail's reward-to-go list. -/
theorem rtg_cons_ne (γ r : ℚ) (rest : List ℚ) (h : rest ≠ []) :
    rtg γ (r :: rest) = (r + γ * (rtg γ rest).headD 0) :: rtg γ rest := by
  have hne : rtg γ rest ≠ [] := by
    intro hcon
    have hl := rtg_length γ rest
    rw [hcon] at hl
    exact h (List.eq_nil_of_length_eq_zero hl.symm)
  obtain ⟨x, xs, hx⟩ := List.exists_cons_of_ne_nil hne
  rw [rtg_cons, hx]
  simp

/-- The recurrence rtg[t] = rewards[t] + γ * rtg[t+1] (with rtg past the
end taken as 0), read off positionally with getD. -/
theorem rtg_getD (γ : ℚ) (rewards : List ℚ) (t : ℕ) (ht : t < rewards.length) :
    (rtg γ rewards).getD t 0 =
      rewards.getD t 0 +
        γ * (if t + 1 < rewards.length then (rtg γ rewards).getD (t + 1) 0 else 0) := by
  induction rewards generalizing t with
  | nil => simp at ht
  | cons r rest ih =>
    by_cases hrest : rest = []
    · subst hrest
      have ht0 : t = 0 := by simpa using ht
      subst ht0
      simp [rtg]
    · rw [rtg_cons_ne γ r rest hrest]
      have hne : rtg γ rest ≠ [] := by
        intro hcon
        have hl := rtg_length γ rest
        rw [hcon] at hl
        exact hrest (List.eq_nil_of_length_eq_zero hl.symm)
      obtain ⟨x, xs, hx⟩ := List.exists_cons_of_ne_nil hne
      cases t with
      | zero =>
        have h1 : 0 + 1 < (r :: rest).length := by
          cases rest with
          | nil => exact absurd rfl hrest
          | cons a l => simp
        simp only [List.getD_cons_zero, List.getD_cons_succ, if_pos h1, hx]
        simp
      | succ t' =>
        have ht' : t' < rest.length := by simpa using ht
        have hcond : (t' + 1 + 1 < (r :: rest).length) = (t' + 1 < rest.length) := by
          simp
        simp only [List.getD_cons_succ, hcond]
        exact ih t' ht'

/-- Unfolding the accumulation loop once the accumulator is non-None. -/
theorem lossLoop_some (blp : List (List ℚ)) :
    ∀ (bw : List (List ℚ)) (a : ℚ), blp.length ≤ bw.length →
      lossLoop blp bw (some a) =
        .ok (some (a + (List.zipWith (fun lp w => -(dotSum lp w)) blp bw).sum)) := by
  induction blp with
  | nil => intro bw a _; simp [lossLoop]
  | cons lp lps ih =>
    intro bw a hlen
    cases bw with
    | nil => simp at hlen
    | cons w ws =>
      have hlen' : lps.length ≤ ws.length := by simpa using hlen
      simp only [lossLoop]
      rw [ih ws (a + -(dotSum lp w)) hlen']
      simp only [List.zipWith_cons_cons, List.sum_cons]
      ring_nf

/-- Closed form of the loss on a nonempty batch whose reward list is long
enough: the accumulated sum of per-episode contributions divided by the
batch size. -/
theorem lossOfBatch_closed (γ : ℚ) (blp brw : List (List ℚ))
    (hne : blp ≠ []) (hlen : blp.length ≤ brw.length) :
    lossOfBatch γ blp brw =
      .ok ((List.zipWith (fun lp rw => -(dotSum lp (rtg γ rw))) blp brw).sum /
        (blp.length : ℚ)) := by
  obtain ⟨lp, lps, rfl⟩ := List.exists_cons_of_ne_nil hne
  cases brw with
  | nil => simp at hlen
  | cons rw rws =>
    have hlen' : lps.length ≤ (rws.map (rtg γ)).length := by simpa using hlen
    simp only [lossOfBatch, List.map_cons, lossLoop]
    rw [lossLoop_some lps (rws.map (rtg γ)) (-(dotSum lp (rtg γ rw))) hlen']
    simp only [List.zipWith_cons_cons, List.sum_cons, List.zipWith_map_right]

/-! ## Claim C1: the reward-to-go computation in optimize_model -/

/-- Claim C1: for every rewards sequence and discount factor γ, the
reward-to-go sequence computed by optimize_model (the rtg loop of model.py
lines 173-179) has the same length as the rewards and satisfies
rtg[t] = reward[t] + γ * rtg[t+1] for every t, with rtg past the end taken
as 0; in particular rtg for rewards [1,1,1] at γ = 1/2 is [7/4, 3/2, 1]
(that is, [1.75, 1.5, 1.0]). -/
theorem c1_rtg_recurrence (γ : ℚ) (rewards : List ℚ) :
    (rtg γ rewards).length = rewards.length ∧
    (∀ t, t < rewards.length →
      (rtg γ rewards).getD t 0 =
        rewards.getD t 0 +
          γ * (if t + 1 < rewards.length then (rtg γ rewards).getD (t + 1) 0 else 0)) ∧
    rtg (1/2) [1, 1, 1] = [7/4, 3/2, 1] := by
  refine ⟨rtg_length γ rewards, fun t ht => rtg_getD γ rewards t ht, ?_⟩
  norm_num [rtg]

/-- Witness for C1 at rewards [1,1,1], γ = 1/2, t = 0. -/
theorem c1_rtg_recurrence_witness :
    (0 < ([1, 1, 1] : List ℚ).length) ∧
    (rtg (1/2) [1, 1, 1]).getD 0 0 =
      ([1, 1, 1] : List ℚ).getD 0 0 +
        (1/2) * (if 0 + 1 < ([1, 1, 1] : List ℚ).length
                 then (rtg (1/2) [1, 1, 1]).getD (0 + 1) 0 else 0) :=
  ⟨by decide, (c1_rtg_recurrence (1/2) [1, 1, 1]).2.1 0 (by decide)⟩

/-! ## Claim C2: the loss is the batch mean of the per-episode objective -/

/-- Claim C2: for every nonempty batch of per-episode log-probability
sequences paired with same-length reward sequences, the scalar loss
backpropagated by optimize_model equals the mean over episodes of
minus the sum over t of log_prob[t] * rtg[t], where rtg is the episode's
reward-to-go sequence. -/
theorem c2_loss_is_mean (γ : ℚ) (blp brw : List (List ℚ))
    (hne : blp ≠ [])
    (hlen : blp.map List.length = brw.map List.length) :
    lossOfBatch γ blp brw =
      .ok ((List.zipWith (fun lp rw => -(dotSum lp (rtg γ rw))) blp brw).sum /
        (blp.length : ℚ)) := by
  have hl : blp.length = brw.length := by
    have := congrArg List.length hlen
    simpa using this
  exact lossOfBatch_closed γ blp brw hne (le_of_eq hl)

/-- Witness for C2 on the one-episode batch log_prob [[1]], rewards [[2]]. -/
theorem c2_loss_is_mean_witness :
    (([[1]] : List (List ℚ)) ≠ []) ∧
    ([[1]] : List (List ℚ)).map List.length = ([[2]] : List (List ℚ)).map List.length ∧
    lossOfBatch 1 [[1]] [[2]] =
      .ok ((List.zipWith (fun lp rw => -(dotSum lp (rtg 1 rw))) [[1]] [[2]]).sum /
        ((([[1]] : List (List ℚ)).length : ℚ))) :=
  ⟨by simp, rfl, c2_loss_is_mean 1 [[1]] [[2]] (by simp) rfl⟩

/-! ## Claim C8: the loss strictly decreases in a positively-weighted
log-probability entry -/

/-- Batch with the log-probability entry of episode i at step t increased
by δ, everything else unchanged. -/
def updAt (blp : List (List ℚ)) (i t : ℕ) (δ : ℚ) : List (List ℚ) :=
  blp.set i ((blp.getD i []).set t ((blp.getD i []).getD t 0 + δ))

theorem getD_map_rtg (γ : ℚ) (brw : List (List ℚ)) (i : ℕ) :
    (brw.map (rtg γ)).getD i [] = rtg γ (brw.getD i []) := by
  induction brw generalizing i with
  | nil => cases i <;> simp [rtg]
  | cons rw rws ih =>
    cases i with
    | zero => simp
    | succ n =>
      simp only [List.map_cons, List.getD_cons_succ]
      exact ih n

theorem getD_map_length (l : List (List ℚ)) (i : ℕ) :
    (l.map List.length).getD i 0 = (l.getD i []).length := by
  induction l generalizing i with
  | nil => cases i <;> simp
  | cons x xs ih =>
    cases i with
    | zero => simp
    | succ n =>
      simp only [List.map_cons, List.getD_cons_succ]
      exact ih n

theorem dotSum_set_add (lp : List ℚ) :
    ∀ (w : List ℚ) (t : ℕ) (δ : ℚ), t < lp.length → t < w.length →
      dotSum (lp.set t (lp.getD t 0 + δ)) w = dotSum lp w + δ * w.getD t 0 := by
  induction lp with
  | nil => intro w t δ ht _; simp at ht
  | cons a as ih =>
    intro w t δ ht htw
    cases w with
    | nil => simp at htw
    | cons b bs =>
      cases t with
      | zero => simp [dotSum]; ring
      | succ t' =>
        have ht' : t' < as.length := by simpa using ht
        have htw' : t' < bs.length := by simpa using htw
        have hred : (a :: as).set (t' + 1) ((a :: as).getD (t' + 1) 0 + δ) =
            a :: as.set t' (as.getD t' 0 + δ) := rfl
        rw [hred]
        simp only [dotSum, List.zipWith_cons_cons, List.sum_cons,
          List.getD_cons_succ]
        have := ih bs t' δ ht' htw'
        simp only [dotSum] at this
        rw [this]
        ring

theorem zipWith_negDot_set (blp : List (List ℚ)) :
    ∀ (bw : List (List ℚ)) (i : ℕ) (lp' : List ℚ), i < blp.length →
      blp.length ≤ bw.length →
      (List.zipWith (fun lp w => -(dotSum lp w)) (blp.set i lp') bw).sum =
        (List.zipWith (fun lp w => -(dotSum lp w)) blp bw).sum
          - dotSum lp' (bw.getD i []) + dotSum (blp.getD i []) (bw.getD i []) := by
  induction blp with
  | nil => intro bw i lp' hi _; simp at hi
  | cons lp lps ih =>
    intro bw i lp' hi hlen
    cases bw with
    | nil => simp at hlen
    | cons w ws =>
      cases i with
      | zero => simp; ring
      | succ i' =>
        have hi' : i' < lps.length := by simpa using hi
        have hlen' : lps.length ≤ ws.length := by simpa using hlen
        have hred : (lp :: lps).set (i' + 1) lp' = lp :: lps.set i' lp' := rfl
        rw [hred]
        simp only [List.zipWith_cons_cons, List.sum_cons, List.getD_cons_succ]
        rw [ih ws i' lp' hi' hlen']
        ring

/-- Claim C8: the loss computed by optimize_model strictly decreases when a
single log-probability entry whose reward-to-go weight is positive is
increased, everything else held fixed. -/
theorem c8_loss_strict_decrease (γ δ : ℚ) (blp brw : List (List ℚ)) (i t : ℕ)
    (hδ : 0 < δ)
    (hlen : blp.map List.length = brw.map List.length)
    (hi : i < blp.length)
    (ht : t < (blp.getD i []).length)
    (hw : 0 < ((brw.map (rtg γ)).getD i []).getD t 0) :
    ∃ l₁ l₂, lossOfBatch γ blp brw = .ok l₁ ∧
      lossOfBatch γ (updAt blp i t δ) brw = .ok l₂ ∧ l₂ < l₁ := by
  have hl : blp.length = brw.length := by
    have := congrArg List.length hlen
    simpa using this
  have hne : blp ≠ [] := by
    intro hcon; rw [hcon] at hi; simp at hi
  have hlen2 : (updAt blp i t δ).length = blp.length := by simp [updAt]
  have hne' : updAt blp i t δ ≠ [] := by
    intro hcon
    rw [hcon] at hlen2
    simp at hlen2
    omega
  have h1 := lossOfBatch_closed γ blp brw hne (le_of_eq hl)
  have h2 := lossOfBatch_closed γ (updAt blp i t δ) brw hne'
    (by rw [hlen2]; exact le_of_eq hl)
  rw [hlen2] at h2
  -- rewrite the numerator of the updated batch's loss
  have hepi : (blp.getD i []).length = (brw.getD i []).length := by
    have h : (blp.map List.length).getD i 0 = (brw.map List.length).getD i 0 := by
      rw [hlen]
    rw [getD_map_length, getD_map_length] at h
    exact h
  have hwlen : t < ((brw.map (rtg γ)).getD i []).length := by
    rw [getD_map_rtg, rtg_length]
    omega
  have hset := zipWith_negDot_set blp (brw.map (rtg γ)) i
    ((blp.getD i []).set t ((blp.getD i []).getD t 0 + δ)) hi
    (by simp; omega)
  have hdot := dotSum_set_add (blp.getD i []) ((brw.map (rtg γ)).getD i []) t δ ht
    hwlen
  have hzip : ∀ b : List (List ℚ),
      List.zipWith (fun lp w => -(dotSum lp w)) b (brw.map (rtg γ)) =
        List.zipWith (fun lp rw => -(dotSum lp (rtg γ rw))) b brw :=
    fun b => List.zipWith_map_right b brw (rtg γ) (fun lp w => -(dotSum lp w))
  rw [show updAt blp i t δ =
        blp.set i ((blp.getD i []).set t ((blp.getD i []).getD t 0 + δ)) from rfl,
      ← hzip (blp.set i ((blp.getD i []).set t ((blp.getD i []).getD t 0 + δ))),
      hset, hdot, hzip blp] at h2
  rw [show blp.set i ((blp.getD i []).set t ((blp.getD i []).getD t 0 + δ)) =
        updAt blp i t δ from rfl] at h2
  refine ⟨_, _, h1, h2, ?_⟩
  have hn : (0 : ℚ) < (blp.length : ℚ) := by
    have : 0 < blp.length := List.length_pos.mpr hne
    exact_mod_cast this
  have hpos : 0 < δ * ((brw.map (rtg γ)).getD i []).getD t 0 := mul_pos hδ hw
  apply div_lt_div_of_pos_right _ hn
  linarith

/-- Witness for C8 with one episode, log_prob [[0]], rewards [[1]], γ = 1,
i = t = 0, δ = 1. -/
theorem c8_loss_strict_decrease_witness :
    (0 : ℚ) < 1 ∧
    ([[0]] : List (List ℚ)).map List.length = ([[1]] : List (List ℚ)).map List.length ∧
    0 < ([[0]] : List (List ℚ)).length ∧
    0 < (([[0]] : List (List ℚ)).getD 0 []).length ∧
    (0 : ℚ) < ((([[1]] : List (List ℚ)).map (rtg 1)).getD 0 []).getD 0 0 ∧
    ∃ l₁ l₂, lossOfBatch 1 [[0]] [[1]] = .ok l₁ ∧
      lossOfBatch 1 (updAt [[0]] 0 0 1) [[1]] = .ok l₂ ∧ l₂ < l₁ :=
  ⟨by decide, rfl, by decide, by decide, by decide,
    c8_loss_strict_decrease 1 1 [[0]] [[1]] 0 0 (by decide) rfl (by decide)
      (by decide) (by decide)⟩

/-! ## Claim C4: optimize_model on fully detached log-probabilities -/

/-- Counterexample to claim C4: a batch whose only log-probability tensor
is detached (requires_grad = false) does not make optimize_model complete
silently; loss.backward() raises a RuntimeError, so the call does not
return successfully. -/
theorem c4_detached_counterexample :
    (∀ g ∈ [GTensor.mk [1] false], g.requires_grad = false) ∧
    ¬ ∃ l, optimize_model 1 [GTensor.mk [1] false] [[1]] = .ok l := by
  constructor
  · intro g hg
    simp at hg
    rw [hg]
  · intro ⟨l, hl⟩
    have : optimize_model 1 [GTensor.mk [1] false] [[1]] =
        .error "RuntimeError: element 0 of tensors does not require grad and does not have a grad_fn" := by
      rfl
    rw [this] at hl
    exact Except.noConfusion hl

/-- Amended claim C4: when every log-probability tensor in a nonempty,
well-formed batch is detached from the computation graph, optimize_model
does not complete: it raises the runtime's null-gradient RuntimeError at
loss.backward(), aborting before the optimizer step (so parameters are
untouched because no update ever runs). -/
theorem c4_detached_raises (γ : ℚ) (blp : List GTensor) (brw : List (List ℚ))
    (hne : blp ≠ [])
    (hlen : blp.length ≤ brw.length)
    (hdet : ∀ g ∈ blp, g.requires_grad = false) :
    optimize_model γ blp brw =
      .error "RuntimeError: element 0 of tensors does not require grad and does not have a grad_fn" := by
  have hne' : blp.map GTensor.data ≠ [] := by
    intro hcon
    exact hne (List.map_eq_nil_iff.mp hcon)
  have hlen' : (blp.map GTensor.data).length ≤ brw.length := by
    simpa using hlen
  have hany : blp.any GTensor.requires_grad = false := by
    rw [List.any_eq_false]
    intro g hg
    simp [hdet g hg]
  rw [optimize_model, lossOfBatch_closed γ (blp.map GTensor.data) brw hne' hlen', hany]
  simp

/-- Witness for the amended C4 on the batch with one detached episode. -/
theorem c4_detached_raises_witness :
    ([GTensor.mk [1] false] ≠ []) ∧
    ([GTensor.mk [1] false].length ≤ ([[1]] : List (List ℚ)).length) ∧
    (∀ g ∈ [GTensor.mk [1] false], g.requires_grad = false) ∧
    optimize_model 1 [GTensor.mk [1] false] [[1]] =
      .error "RuntimeError: element 0 of tensors does not require grad and does not have a grad_fn" :=
  ⟨by decide, by decide, by decide,
    c4_detached_raises 1 [GTensor.mk [1] false] [[1]] (by decide) (by decide)
      (by decide)⟩

/-! ## Embedding of PolicyNet's recurrent state (model.py lines 79-111)

One batch element is modeled; a hidden vector is a list of rationals and
an LSTMCell is an abstract function of the input and the carried (h, c)
pair, since the claims concern only the wiring between layers. -/

/-- The pair of state lists PolicyNet mutates across calls
(model.py lines 79-80). -/
structure PNState where
  h_list : List (List ℚ)
  c_list : List (List ℚ)
  deriving Repr, DecidableEq

/-- The zero tensor torch.zeros((batch_size, hidden_size)) for one batch
slot of width H. -/
def zeros (H : ℕ) : List ℚ := List.replicate H 0

/-- An LSTMCell viewed abstractly: input and previous (hidden, cell) pair
to new (hidden, cell) pair. -/
abbrev Cell := List ℚ → List ℚ × List ℚ → List ℚ × List ℚ

/-- The reset branch, model.py lines 92-95: h_list and c_list each become
the ONE-element list [torch.zeros(...) * num_layers] (elementwise scalar
multiplication of the zero tensor by num_layers, still the zero tensor;
not a list of num_layers tensors), and then h_list[0] is overwritten with
the encoding. -/
def resetState (H L : ℕ) (encoding : List ℚ) : PNState :=
  { h_list := [(zeros H).map (fun v => v * (L : ℚ))].set 0 encoding,
    c_list := [(zeros H).map (fun v => v * (L : ℚ))] }

/-- The layer loop of model.py lines 105-108, running n iterations from
layer index i: each iteration feeds the previous layer's freshly computed
hidden output as input and carries hc0 = (self.h_list[0], self.c_list[0]),
the pair read from position 0 of the stored lists. -/
def stepLoop (cells : ℕ → Cell) (hc0 : List ℚ × List ℚ) :
    ℕ → ℕ → List ℚ → List (List ℚ × List ℚ)
  | 0, _, _ => []
  | n + 1, i, h =>
    cells i h hc0 :: stepLoop cells hc0 n (i + 1) (cells i h hc0).1

/-- One pass through the stacked cells, model.py lines 97-111: layer 0
consumes the state input with carry (h_list[0], c_list[0]); layers
1..L-1 consume the previous layer's new hidden output with the same carry
(h_list[0], c_list[0]); the per-layer outputs are stored back as the new
h_list and c_list. -/
def forwardStep (cells : ℕ → Cell) (L : ℕ) (σ : PNState) (state : List ℚ) :
    PNState :=
  let hc0 := (σ.h_list.getD 0 [], σ.c_list.getD 0 [])
  let outs := cells 0 state hc0 :: stepLoop cells hc0 (L - 1) 1 (cells 0 state hc0).1
  { h_list := outs.map Prod.fst, c_list := outs.map Prod.snd }

/-- The recurrent-state effect of PolicyNet.forward (model.py lines 82-111):
with an encoding the stored state is first replaced by resetState; without
one the stored state is used as is. -/
def forwardState (cells : ℕ → Cell) (L H : ℕ) (σ : PNState) (state : List ℚ)
    (encoding : Option (List ℚ)) : PNState :=
  match encoding with
  | some e => forwardStep cells L (resetState H L e) state
  | none => forwardStep cells L σ state

/-- The wiring the spec describes as standard stacked-LSTM behavior, for
contrast: layer i would carry its OWN previous (h_list[i], c_list[i]) pair.
Modelled from the spec words of claim C6 ("not layer i's own previous
state"); it is not what the code does. -/
def stepLoopOwn (cells : ℕ → Cell) (σ : PNState) :
    ℕ → ℕ → List ℚ → List (List ℚ × List ℚ)
  | 0, _, _ => []
  | n + 1, i, h =>
    cells i h (σ.h_list.getD i [], σ.c_list.getD i []) ::
      stepLoopOwn cells σ n (i + 1) (cells i h (σ.h_list.getD i [], σ.c_list.getD i [])).1

/-- The own-carry variant of forwardStep (contrast definition for C6). -/
def forwardStepOwn (cells : ℕ → Cell) (L : ℕ) (σ : PNState) (state : List ℚ) :
    PNState :=
  let outs := cells 0 state (σ.h_list.getD 0 [], σ.c_list.getD 0 []) ::
    stepLoopOwn cells σ (L - 1) 1
      (cells 0 state (σ.h_list.getD 0 [], σ.c_list.getD 0 [])).1
  { h_list := outs.map Prod.fst, c_list := outs.map Prod.snd }

/-- A pass-through cell used for the concrete counterexamples: it returns
the carried pair unchanged. -/
def cellsPass : ℕ → Cell := fun _ _ hc => hc

/-! ### Chain characterization of forwardStep -/

/-- The per-layer output pairs when every layer carries hc0 and consumes
the previous layer's fresh hidden output. -/
def chain (cells : ℕ → Cell) (hc0 : List ℚ × List ℚ) (s : List ℚ) :
    ℕ → List ℚ × List ℚ
  | 0 => cells 0 s hc0
  | i + 1 => cells (i + 1) (chain cells hc0 s i).1 hc0

theorem stepLoop_chain (cells : ℕ → Cell) (hc0 : List ℚ × List ℚ) (s : List ℚ) :
    ∀ (m i : ℕ), stepLoop cells hc0 m (i + 1) (chain cells hc0 s i).1 =
      (List.range m).map (fun j => chain cells hc0 s (i + 1 + j)) := by
  intro m
  induction m with
  | zero => intro i; rfl
  | succ n ih =>
    intro i
    have hcell : cells (i + 1) (chain cells hc0 s i).1 hc0 =
        chain cells hc0 s (i + 1) := rfl
    simp only [stepLoop, hcell]
    rw [ih (i + 1)]
    rw [List.range_succ_eq_map, List.map_cons, List.map_map]
    congr 1
    · apply List.map_congr_left
      intro j _
      have : i + 1 + 1 + j = i + 1 + (j + 1) := by omega
      simp [Function.comp, this]

theorem forwardStep_eq_chainMap (cells : ℕ → Cell) (L : ℕ) (σ : PNState)
    (s : List ℚ) (hL : 1 ≤ L) :
    forwardStep cells L σ s =
      { h_list := (List.range L).map
          (fun i => (chain cells (σ.h_list.getD 0 [], σ.c_list.getD 0 []) s i).1),
        c_list := (List.range L).map
          (fun i => (chain cells (σ.h_list.getD 0 [], σ.c_list.getD 0 []) s i).2) } := by
  have houts : cells 0 s (σ.h_list.getD 0 [], σ.c_list.getD 0 []) ::
      stepLoop cells (σ.h_list.getD 0 [], σ.c_list.getD 0 []) (L - 1) 1
        (cells 0 s (σ.h_list.getD 0 [], σ.c_list.getD 0 [])).1 =
      (List.range L).map
        (fun i => chain cells (σ.h_list.getD 0 [], σ.c_list.getD 0 []) s i) := by
    have h0 : cells 0 s (σ.h_list.getD 0 [], σ.c_list.getD 0 []) =
        chain cells (σ.h_list.getD 0 [], σ.c_list.getD 0 []) s 0 := rfl
    rw [h0, stepLoop_chain cells (σ.h_list.getD 0 [], σ.c_list.getD 0 []) s (L - 1) 0]
    rw [show L = (L - 1) + 1 from by omega, List.range_succ_eq_map, List.map_cons,
      List.map_map]
    simp only [Nat.add_sub_cancel]
    congr 1
    · apply List.map_congr_left
      intro j _
      have : 0 + 1 + j = j + 1 := by omega
      simp [Function.comp, this]
  simp only [forwardStep]
  rw [houts, List.map_map, List.map_map]
  rfl

/-- Reading an entry of a mapped range list. -/
theorem getD_map_range {α : Type} (f : ℕ → α) (L i : ℕ) (d : α) (h : i < L) :
    ((List.range L).map f).getD i d = f i := by
  rw [List.getD_eq_getElem?_getD, List.getElem?_map, List.getElem?_range h]
  rfl

/-- The (hidden, cell) pair stored for layer i by one forwardStep, for
1 ≤ i < L: it is cell i applied to layer i-1's new hidden output with
carry (h_list[0], c_list[0]) of the PREVIOUS state. -/
theorem forwardStep_getD_pair (cells : ℕ → Cell) (L : ℕ) (σ : PNState)
    (s : List ℚ) (i : ℕ) (h1 : 1 ≤ i) (hiL : i < L) :
    ((forwardStep cells L σ s).h_list.getD i [],
     (forwardStep cells L σ s).c_list.getD i []) =
      cells i ((forwardStep cells L σ s).h_list.getD (i - 1) [])
        (σ.h_list.getD 0 [], σ.c_list.getD 0 []) := by
  have hL : 1 ≤ L := le_trans h1 (le_of_lt hiL)
  rw [forwardStep_eq_chainMap cells L σ s hL]
  obtain ⟨i', rfl⟩ : ∃ i', i = i' + 1 := ⟨i - 1, by omega⟩
  simp only
  rw [getD_map_range _ L _ _ hiL, getD_map_range _ L _ _ hiL,
    getD_map_range _ L _ _ (by omega : i' + 1 - 1 < L)]
  simp only [Nat.add_sub_cancel]
  rfl

/-! ## Claim C7: reset is idempotent on the recurrent state -/

/-- Claim C7: for every context vector e and state vector s, calling
PolicyNet.forward with encoding = e twice in succession leaves exactly the
recurrent state (h_list, c_list) of a single such call: the reset branch
discards whatever state the first call stored. -/
theorem c7_reset_idempotent (cells : ℕ → Cell) (L H : ℕ) (σ : PNState)
    (e s : List ℚ) :
    forwardState cells L H (forwardState cells L H σ s (some e)) s (some e) =
      forwardState cells L H σ s (some e) := rfl

/-! ## Claim C6: step mode reuses layer 0's previous carry for every layer -/

/-- The concrete stored state used to separate the literal wiring from the
own-carry wiring: layer 0 holds hidden [1], layer 1 holds hidden [2], both
cells zero. -/
def sigmaEx : PNState :=
  { h_list := [[1], [2]], c_list := [[0], [0]] }

/-- Claim C6: in a step call (no encoding), each layer i with 1 ≤ i < L
consumes layer i-1's newly computed hidden output as its input but uses
layer 0's previous (h_list[0], c_list[0]) pair as its recurrent carry; and
this differs from the wiring in which layer i carries its own previous
(h_list[i], c_list[i]) pair, as the pass-through cells on sigmaEx show. -/
theorem c6_step_carries_layer0 (cells : ℕ → Cell) (L : ℕ) (σ : PNState)
    (s : List ℚ) (i : ℕ) (h1 : 1 ≤ i) (hiL : i < L) :
    (((forwardState cells L 0 σ s none).h_list.getD i [],
      (forwardState cells L 0 σ s none).c_list.getD i []) =
      cells i ((forwardState cells L 0 σ s none).h_list.getD (i - 1) [])
        (σ.h_list.getD 0 [], σ.c_list.getD 0 [])) ∧
    forwardStep cellsPass 2 sigmaEx [0] ≠ forwardStepOwn cellsPass 2 sigmaEx [0] := by
  constructor
  · exact forwardStep_getD_pair cells L σ s i h1 hiL
  · decide

/-- Witness for C6 with pass-through cells at layer i = 1 of L = 2. -/
theorem c6_step_carries_layer0_witness :
    (1 ≤ 1) ∧ (1 < 2) ∧
    ((((forwardState cellsPass 2 0 sigmaEx [0] none).h_list.getD 1 [],
       (forwardState cellsPass 2 0 sigmaEx [0] none).c_list.getD 1 []) =
       cellsPass 1 ((forwardState cellsPass 2 0 sigmaEx [0] none).h_list.getD (1 - 1) [])
         (sigmaEx.h_list.getD 0 [], sigmaEx.c_list.getD 0 [])) ∧
     forwardStep cellsPass 2 sigmaEx [0] ≠ forwardStepOwn cellsPass 2 sigmaEx [0]) :=
  ⟨by decide, by decide,
    c6_step_carries_layer0 cellsPass 2 sigmaEx [0] 1 (by decide) (by decide)⟩

/-! ## Claim C3: what state the context injection establishes -/

/-- Counterexample to claim C3 as stated.  The claim asserts that after a
reset call the context injection sets only layer 0's hidden state to the
context vector while every layer i with 1 ≤ i < L starts from ZERO
hidden/cell carry in the first step.  With pass-through cells, L = 2,
hidden width 1, context [1], state [0], layer 1's first-step output equals
its actual carry (the context [1] with zero cell), not the zero pair the
claim predicts, so the claim's universally quantified part fails at i = 1. -/
theorem c3_counterexample :
    ¬ ((resetState 1 2 [1]).h_list.getD 0 [] = [1] ∧
       ∀ i, 1 ≤ i → i < 2 →
         ((forwardStep cellsPass 2 (resetState 1 2 [1]) [0]).h_list.getD i [],
          (forwardStep cellsPass 2 (resetState 1 2 [1]) [0]).c_list.getD i []) =
           cellsPass i
             ((forwardStep cellsPass 2 (resetState 1 2 [1]) [0]).h_list.getD (i - 1) [])
             (zeros 1, zeros 1)) := by
  intro hclaim
  have h := hclaim.2 1 (le_refl 1) (by omega)
  revert h
  decide

/-- Amended claim C3: the context injection creates ONE-slot state lists,
h_list = [context] and c_list = [zero vector]; consequently in the first
step after a reset every layer i with 1 ≤ i < L uses the CONTEXT vector as
its hidden carry and the zero vector as its cell carry (not a zero
hidden/cell pair), because all layers read position 0 of the stored lists. -/
theorem c3_reset_state_amended (cells : ℕ → Cell) (L H : ℕ) (e s : List ℚ)
    (i : ℕ) (h1 : 1 ≤ i) (hiL : i < L) :
    (resetState H L e).h_list = [e] ∧
    (resetState H L e).c_list = [zeros H] ∧
    ((forwardStep cells L (resetState H L e) s).h_list.getD i [],
     (forwardStep cells L (resetState H L e) s).c_list.getD i []) =
      cells i ((forwardStep cells L (resetState H L e) s).h_list.getD (i - 1) [])
        (e, zeros H) := by
  have hmap : (zeros H).map (fun v => v * (L : ℚ)) = zeros H := by
    simp [zeros]
  refine ⟨rfl, by simp [resetState, hmap], ?_⟩
  have h := forwardStep_getD_pair cells L (resetState H L e) s i h1 hiL
  have hh : (resetState H L e).h_list.getD 0 [] = e := rfl
  have hc : (resetState H L e).c_list.getD 0 [] = zeros H := by
    simp [resetState, hmap]
  rw [hh, hc] at h
  exact h

/-- Witness for the amended C3 with pass-through cells, L = 2, H = 1,
context [1], state [0], layer i = 1. -/
theorem c3_reset_state_amended_witness :
    (1 ≤ 1) ∧ (1 < 2) ∧
    ((resetState 1 2 [1]).h_list = [[1]] ∧
     (resetState 1 2 [1]).c_list = [zeros 1] ∧
     ((forwardStep cellsPass 2 (resetState 1 2 [1]) [0]).h_list.getD 1 [],
      (forwardStep cellsPass 2 (resetState 1 2 [1]) [0]).c_list.getD 1 []) =
       cellsPass 1
         ((forwardStep cellsPass 2 (resetState 1 2 [1]) [0]).h_list.getD (1 - 1) [])
         ([1], zeros 1)) :=
  ⟨by decide, by decide,
    c3_reset_state_amended cellsPass 2 1 [1] [0] 1 (by decide) (by decide)⟩

/-! ## Embedding of PolicyNet's action construction (model.py lines 120-162)

The categorical and normal samplers are abstract: the sampled decision is
a one-hot vector at some index j with log-probability dlp, and the normal
sample and its log-probability in dimension i are vals i and lps i. -/

/-- One iteration of the per-dimension loop of model.py lines 134-141: if
the accumulator is still None it becomes the singleton sample column,
otherwise the new sample column is concatenated on the right; the
log-probability accumulator moves in lockstep (it is None exactly when the
value accumulator is). -/
def sampleStep (vals lps : ℕ → ℚ) (acc : Option (List ℚ × List ℚ)) (i : ℕ) :
    Option (List ℚ × List ℚ) :=
  match acc with
  | none => some ([vals i], [lps i])
  | some (av, alp) => some (av ++ [vals i], alp ++ [lps i])

/-- The whole loop `for i in range(self.num_actions - 1)` of model.py lines
134-141, starting from the None accumulators of lines 131-132. -/
def sampleFold (vals lps : ℕ → ℚ) (k : ℕ) : Option (List ℚ × List ℚ) :=
  (List.range (k - 1)).foldl (sampleStep vals lps) none

/-- Lines 144-145: concatenate the fixed no-op column (value 0.0,
log-probability 0.0).  When the loop ran zero times the accumulator is
still None and torch.cat([None, ...]) raises a TypeError, modeled as
none. -/
def appendNoop : Option (List ℚ × List ℚ) → Option (List ℚ × List ℚ)
  | none => none
  | some (av, alp) => some (av ++ [0], alp ++ [0])

/-- The action_values and actions_log_prob rows produced by one forward
call (model.py lines 130-145), or none when the construction raises. -/
def actionTensors (k : ℕ) (vals lps : ℕ → ℚ) : Option (List ℚ × List ℚ) :=
  appendNoop (sampleFold vals lps k)

/-- A sampled one-hot decision vector over k dimensions with the 1 at
index j (the abstract result of OneHotCategorical.sample on line 124). -/
def oneHot (k j : ℕ) : List ℚ :=
  (List.range k).map (fun m => if m = j then 1 else 0)

/-- Lines 147-159: mask the rows by the one-hot decision and sum, scale the
selected value by act_lim, and add the decision log-probability to the
selected value log-probability. -/
def finalOutputs (k : ℕ) (act_lim : ℚ) (vals lps : ℕ → ℚ) (j : ℕ) (dlp : ℚ) :
    Option (List ℚ × ℚ × ℚ) :=
  match actionTensors k vals lps with
  | none => none
  | some (av, alp) =>
    some (oneHot k j, dotSum av (oneHot k j) * act_lim,
      dlp + dotSum alp (oneHot k j))

/-! ### Lemmas about the sampling fold -/

theorem sampleFold_from_some (vals lps : ℕ → ℚ) (l : List ℕ) :
    ∀ (av alp : List ℚ),
      l.foldl (sampleStep vals lps) (some (av, alp)) =
        some (av ++ l.map vals, alp ++ l.map lps) := by
  induction l with
  | nil => intro av alp; simp
  | cons i is ih =>
    intro av alp
    simp only [List.foldl_cons, sampleStep]
    rw [ih (av ++ [vals i]) (alp ++ [lps i])]
    simp

/-- For k ≥ 2 the loop produces the sample columns for dimensions
0..k-2 in order. -/
theorem sampleFold_eq (vals lps : ℕ → ℚ) (m : ℕ) :
    sampleFold vals lps (m + 2) =
      some ((List.range (m + 1)).map vals, (List.range (m + 1)).map lps) := by
  rw [sampleFold, show m + 2 - 1 = m + 1 from rfl, List.range_succ_eq_map,
    List.foldl_cons]
  simp only [sampleStep]
  rw [sampleFold_from_some vals lps]
  simp

theorem actionTensors_eq (vals lps : ℕ → ℚ) (m : ℕ) :
    actionTensors (m + 2) vals lps =
      some ((List.range (m + 1)).map vals ++ [0],
        (List.range (m + 1)).map lps ++ [0]) := by
  rw [actionTensors, sampleFold_eq]
  rfl

/-! ## Claim C10: forward needs num_actions ≥ 2 -/

/-- Claim C10: the action-row construction in PolicyNet.forward fails for
num_actions = 1 (and 0): the sampling loop runs zero times, the value
accumulator stays None, and concatenating the no-op column onto None
raises, so every forward call fails; for every num_actions ≥ 2 the
construction succeeds, so the failure is avoided exactly under the
precondition num_actions ≥ 2. -/
theorem c10_requires_two_actions (vals lps : ℕ → ℚ) :
    actionTensors 1 vals lps = none ∧
    actionTensors 0 vals lps = none ∧
    ∀ m, actionTensors (m + 2) vals lps =
      some ((List.range (m + 1)).map vals ++ [0],
        (List.range (m + 1)).map lps ++ [0]) :=
  ⟨rfl, rfl, fun m => actionTensors_eq vals lps m⟩

/-! ## Claim C5: one-hot decision and the no-op dimension -/

theorem oneHot_length (k j : ℕ) : (oneHot k j).length = k := by
  simp [oneHot]

theorem oneHot_getD (k j m : ℕ) (hm : m < k) :
    (oneHot k j).getD m 0 = if m = j then 1 else 0 := by
  rw [oneHot, getD_map_range _ k m 0 hm]

theorem dotSum_map_zero (xs : List ℚ) :
    ∀ l : List ℕ, dotSum xs (l.map (fun _ => (0 : ℚ))) = 0 := by
  induction xs with
  | nil => intro l; simp [dotSum]
  | cons a as ih =>
    intro l
    cases l with
    | nil => simp [dotSum]
    | cons b bs =>
      simp only [List.map_cons, dotSum, List.zipWith_cons_cons, List.sum_cons]
      have := ih bs
      simp only [dotSum] at this
      rw [this]
      ring

/-- Masking by a one-hot vector and summing selects the entry at the hot
index. -/
theorem dotSum_oneHot (xs : List ℚ) :
    ∀ (k j : ℕ), xs.length = k → j < k →
      dotSum xs (oneHot k j) = xs.getD j 0 := by
  induction xs with
  | nil =>
    intro k j hlen hj
    rw [← hlen] at hj
    simp at hj
  | cons a as ih =>
    intro k j hlen hj
    cases k with
    | zero => simp at hj
    | succ k' =>
      have hlen' : as.length = k' := by simpa using hlen
      rw [oneHot, List.range_succ_eq_map, List.map_cons, List.map_map]
      cases j with
      | zero =>
        simp only [if_pos rfl, dotSum, List.zipWith_cons_cons, List.sum_cons]
        have hz : (List.zipWith (fun a b => a * b) as
            ((List.range k').map ((fun m => if m = 0 then (1 : ℚ) else 0) ∘ Nat.succ))).sum
            = 0 := by
          have hfun : (List.range k').map
              ((fun m => if m = 0 then (1 : ℚ) else 0) ∘ Nat.succ) =
              (List.range k').map (fun _ => (0 : ℚ)) :=
            List.map_congr_left (fun b _ => by simp [Function.comp])
          rw [hfun]
          have := dotSum_map_zero as (List.range k')
          simpa [dotSum] using this
        rw [hz]
        simp
      | succ j' =>
        have hj' : j' < k' := by omega
        have hfun : (List.range k').map
            ((fun m => if m = j' + 1 then (1 : ℚ) else 0) ∘ Nat.succ) =
            (List.range k').map (fun m => if m = j' then (1 : ℚ) else 0) :=
          List.map_congr_left (fun b _ => by simp [Function.comp])
        simp only [dotSum, List.zipWith_cons_cons, List.sum_cons]
        rw [hfun]
        have htail := ih k' j' hlen' hj'
        rw [oneHot] at htail
        simp only [dotSum] at htail
        rw [htail]
        simp

/-- The last entry of a list obtained by appending a single element. -/
theorem getD_append_singleton (l : List ℚ) (x : ℚ) :
    (l ++ [x]).getD l.length 0 = x := by
  induction l with
  | nil => rfl
  | cons a as ih => simpa using ih

theorem finalOutputs_eq (k : ℕ) (act_lim : ℚ) (vals lps : ℕ → ℚ) (j : ℕ)
    (dlp : ℚ) (av alp : List ℚ) (h : actionTensors k vals lps = some (av, alp)) :
    finalOutputs k act_lim vals lps j dlp =
      some (oneHot k j, dotSum av (oneHot k j) * act_lim,
        dlp + dotSum alp (oneHot k j)) := by
  rw [finalOutputs, h]

/-- Claim C5: every returned decision vector is one-hot over k = num_actions
dimensions (length k, entry 1 exactly at the sampled index); and whenever
the decision selects dimension k-1 (the no-op dimension) the scaled action
value is 0, the selected-value log-probability contribution is 0, and the
total log-probability equals the decision log-probability alone. -/
theorem c5_noop_dimension (k j : ℕ) (act_lim dlp : ℚ) (vals lps : ℕ → ℚ)
    (hk : 2 ≤ k) (hj : j < k) :
    (oneHot k j).length = k ∧
    (∀ m, m < k → (oneHot k j).getD m 0 = if m = j then 1 else 0) ∧
    (j = k - 1 →
      finalOutputs k act_lim vals lps j dlp = some (oneHot k j, 0, dlp)) := by
  refine ⟨oneHot_length k j, fun m hm => oneHot_getD k j m hm, fun hjk => ?_⟩
  obtain ⟨m, rfl⟩ : ∃ m, k = m + 2 := ⟨k - 2, by omega⟩
  rw [finalOutputs_eq (m + 2) act_lim vals lps j dlp _ _ (actionTensors_eq vals lps m)]
  have hlenv : ((List.range (m + 1)).map vals ++ [(0 : ℚ)]).length = m + 2 := by
    simp
  have hlenl : ((List.range (m + 1)).map lps ++ [(0 : ℚ)]).length = m + 2 := by
    simp
  have hdv := dotSum_oneHot ((List.range (m + 1)).map vals ++ [0]) (m + 2) j hlenv hj
  have hdl := dotSum_oneHot ((List.range (m + 1)).map lps ++ [0]) (m + 2) j hlenl hj
  have hjval : j = m + 1 := by omega
  subst hjval
  have hgv : ((List.range (m + 1)).map vals ++ [(0 : ℚ)]).getD (m + 1) 0 = 0 := by
    have := getD_append_singleton ((List.range (m + 1)).map vals) 0
    simpa using this
  have hgl : ((List.range (m + 1)).map lps ++ [(0 : ℚ)]).getD (m + 1) 0 = 0 := by
    have := getD_append_singleton ((List.range (m + 1)).map lps) 0
    simpa using this
  rw [hgv] at hdv
  rw [hgl] at hdl
  rw [hdv, hdl]
  simp

/-- Witness for C5 at k = 2, j = 1 (the no-op index), act_lim = 1,
dlp = 0, all samples 0. -/
theorem c5_noop_dimension_witness :
    (2 ≤ 2) ∧ (1 < 2) ∧
    ((oneHot 2 1).length = 2 ∧
     (∀ m, m < 2 → (oneHot 2 1).getD m 0 = if m = 1 then 1 else 0) ∧
     (1 = 2 - 1 →
       finalOutputs 2 1 (fun _ => 0) (fun _ => 0) 1 0 = some (oneHot 2 1, 0, 0))) :=
  ⟨by decide, by decide,
    c5_noop_dimension 2 1 1 0 (fun _ => 0) (fun _ => 0) (by decide) (by decide)⟩

/-! ## Claim C9: the shape of Encoder.forward's result -/

/-- Shape of torch.squeeze(t, 1) on model.py line 34: dimension 1 is removed
exactly when its size is 1. -/
def squeezeDim1 (shape : List ℕ) : List ℕ :=
  match shape with
  | b :: h :: rest => if h = 1 then b :: rest else b :: h :: rest
  | s => s

/-- Shape of Encoder.forward's return value (model.py lines 22-36) for an
input of shape (batch, seq_len, input_size): the LSTM's h_n has shape
(num_layers, batch, hidden_size) for every sequence length, h_n[-1, :, :]
keeps (batch, hidden_size), and then squeeze(1) is applied.  seq_len and
input_size are carried to record that they do not enter the result. -/
def encoderForwardShape (num_layers batch hidden_size seq_len input_size : ℕ) :
    List ℕ :=
  squeezeDim1 (List.drop 1 [num_layers, batch, hidden_size])

/-- Claim C9 is a code bug at hidden_size = 1: Encoder.forward's result has
shape (batch, hidden_size) for every hidden_size EXCEPT 1, where squeeze(1)
removes the hidden dimension and the result is (batch,), contradicting the
code's own comment that the squeezed encoding has shape
(batch_size, hidden_size).  Evaluated at the failing configuration
hidden_size = 1 (batch 3): the shape is [3], not [3, 1]. -/
theorem c9_encoder_shape_bug :
    encoderForwardShape 2 3 1 5 4 = [3] ∧
    ([3] : List ℕ) ≠ [3, 1] ∧
    (∀ num_layers batch hidden_size seq_len input_size,
      encoderForwardShape num_layers batch hidden_size seq_len input_size =
        if hidden_size = 1 then [batch] else [batch, hidden_size]) := by
  refine ⟨rfl, by decide, fun nl b h sl is => ?_⟩
  by_cases hh : h = 1 <;> simp [encoderForwardShape, squeezeDim1, hh]

end RLFinance
